import Mathlib

/-!
Verification of the mojibake-repair scripts of the ft-oda-documentation
repository (`fix_all_encoding.py`, `fix_compliance_encoding.py`,
`fix_production_index.py`).

Text is modelled as `List Char` (a Python `str` is a sequence of code
points) and file contents as `List Nat` (bytes).  The embedding covers:

* `decodeReplace` / `decodeStrict` — CPython's UTF-8 decoder with
  `errors='replace'` (one U+FFFD per maximal invalid subpart) and with the
  default strict error handler;
* `replace` — Python `str.replace`, replacing every non-overlapping
  occurrence of a literal pattern, scanning left to right;
* `applyRules` — the `for old, new in replacements.items()` loops;
* the three scripts' literal substitution tables, taken byte-for-byte from
  the sources (note that the script files are themselves stored doubly
  encoded, so e.g. the catch-all pattern is the three code points
  U+00EF U+00BF U+00BD and not the replacement character U+FFFD);
* the per-file driver of `fix_all_encoding.py` with its `try`/`except`
  wrapper, and the unguarded module-level pipelines of the other two
  scripts, with filesystem outcomes passed in explicitly.
-/

/-- Is `x` a UTF-8 continuation byte (0x80–0xBF)? -/
def isCont (x : Nat) : Bool := decide (0x80 ≤ x ∧ x < 0xC0)

/-- The Unicode replacement character U+FFFD produced by `errors='replace'`. -/
def uFFFD : Char := Char.ofNat 0xFFFD

/-- Decode one code point starting at byte `b` with following bytes `rest`,
following CPython's UTF-8 acceptance ranges.  Returns `some c` with the
number of *extra* bytes taken from `rest` (0–3), or `none` with the number
of extra bytes belonging to the maximal invalid subpart (so the error
handler skips `1 + k` bytes in total). -/
def utf8Step (b : Nat) (rest : List Nat) : Option Char × Nat :=
  if b < 0x80 then (some (Char.ofNat b), 0)
  else if b < 0xC2 then (none, 0)
  else if b < 0xE0 then
    match rest with
    | [] => (none, 0)
    | b1 :: _ =>
      if isCont b1 then (some (Char.ofNat (0x40 * (b - 0xC0) + (b1 - 0x80))), 1)
      else (none, 0)
  else if b < 0xF0 then
    match rest with
    | [] => (none, 0)
    | b1 :: rest1 =>
      if (if b = 0xE0 then 0xA0 else 0x80) ≤ b1 ∧ b1 ≤ (if b = 0xED then 0x9F else 0xBF) then
        match rest1 with
        | [] => (none, 1)
        | b2 :: _ =>
          if isCont b2 then
            (some (Char.ofNat (0x1000 * (b - 0xE0) + 0x40 * (b1 - 0x80) + (b2 - 0x80))), 2)
          else (none, 1)
      else (none, 0)
  else if b < 0xF5 then
    match rest with
    | [] => (none, 0)
    | b1 :: rest1 =>
      if (if b = 0xF0 then 0x90 else 0x80) ≤ b1 ∧ b1 ≤ (if b = 0xF4 then 0x8F else 0xBF) then
        match rest1 with
        | [] => (none, 1)
        | b2 :: rest2 =>
          if isCont b2 then
            match rest2 with
            | [] => (none, 2)
            | b3 :: _ =>
              if isCont b3 then
                (some (Char.ofNat
                  (0x40000 * (b - 0xF0) + 0x1000 * (b1 - 0x80) + 0x40 * (b2 - 0x80) + (b3 - 0x80))), 3)
              else (none, 2)
          else (none, 1)
      else (none, 0)
  else (none, 0)

/-- Fuelled worker for `decodeReplace`; the fuel is an upper bound on the
number of bytes left, so the branch returning `[]` at fuel 0 is never
taken for the fuel `decodeReplace` supplies. -/
def decReplGo : Nat → List Nat → List Char
  | _, [] => []
  | 0, _ :: _ => []
  | fuel + 1, b :: rest =>
    match utf8Step b rest with
    | (some c, k) => c :: decReplGo fuel (rest.drop k)
    | (none, k) => uFFFD :: decReplGo fuel (rest.drop k)

/-- `bytes.decode('utf-8', errors='replace')`: total, one U+FFFD per
maximal invalid subpart. -/
def decodeReplace (bs : List Nat) : List Char := decReplGo bs.length bs

/-- Fuelled worker for `decodeStrict`. -/
def decStrictGo : Nat → List Nat → Option (List Char)
  | _, [] => some []
  | 0, _ :: _ => none
  | fuel + 1, b :: rest =>
    match utf8Step b rest with
    | (some c, k) => (decStrictGo fuel (rest.drop k)).map (fun cs => c :: cs)
    | (none, _) => none

/-- `bytes.decode('utf-8')` with the default strict handler: `none` models a
raised `UnicodeDecodeError` (as in `fix_production_index.py`'s text-mode
read). -/
def decodeStrict (bs : List Nat) : Option (List Char) := decStrictGo bs.length bs

/-- UTF-8 encoding of one scalar value (`str.encode`/writing with
`encoding='utf-8'`). -/
def utf8EncodeChar (c : Char) : List Nat :=
  let n := c.toNat
  if n < 0x80 then [n]
  else if n < 0x800 then [0xC0 + n / 0x40, 0x80 + n % 0x40]
  else if n < 0x10000 then
    [0xE0 + n / 0x1000, 0x80 + (n / 0x40) % 0x40, 0x80 + n % 0x40]
  else
    [0xF0 + n / 0x40000, 0x80 + (n / 0x1000) % 0x40, 0x80 + (n / 0x40) % 0x40, 0x80 + n % 0x40]

/-- UTF-8 encoding of a text (re-encoding on write). -/
def utf8Encode (s : List Char) : List Nat :=
  s.foldr (fun c acc => utf8EncodeChar c ++ acc) []

/-- Fuelled worker for `replace`; fuel bounds the length of the text, so
the fuel-0 fallback is never taken for the fuel `replace` supplies. -/
def replGo (p r : List Char) : Nat → List Char → List Char
  | _, [] => []
  | 0, s => s
  | fuel + 1, c :: cs =>
    if p ≠ [] ∧ p.isPrefixOf (c :: cs) then
      r ++ replGo p r fuel (cs.drop (p.length - 1))
    else
      c :: replGo p r fuel cs

/-- Python `str.replace p r`: replace every non-overlapping occurrence of
the literal pattern `p` by `r`, scanning left to right.  An empty pattern
inserts `r` before every character and at the end, as in Python. -/
def replace (p r s : List Char) : List Char :=
  if p = [] then r ++ s.foldr (fun c acc => c :: (r ++ acc)) []
  else replGo p r s.length s

/-- The `for old, new in replacements.items(): text = text.replace(old, new)`
loop: apply each rule in listed order, the output of one rule feeding the
next. -/
def applyRules : List (List Char × List Char) → List Char → List Char
  | [], t => t
  | pr :: rs, t => applyRules rs (replace pr.1 pr.2 t)

/-! ### The substitution tables, byte-for-byte from the sources

The script files are stored doubly UTF-8 encoded, so the literals below
are the code points the Python interpreter actually sees: e.g. the
"remaining replacement characters" pattern is the three code points
U+00EF U+00BF U+00BD (the mojibake rendering of U+FFFD's UTF-8 bytes),
and the "Danish ø" replacement is U+00C3 U+00B8 (mojibake of ø). -/

def pLock : List Char := "=\x10".toList
def rLock : List Char := "ðŸ”’".toList
def pScroll : List Char := "=ï¿½".toList
def rScroll : List Char := "ðŸ“œ".toList
def pCheck : List Char := "\x05".toList
def rCheck : List Char := "âœ…".toList
def pLink : List Char := "=\x17".toList
def rLink : List Char := "ðŸ”—".toList
def pClip : List Char := "<ï¿½\x0F".toList
def rClip : List Char := "ðŸ“‹".toList
def pFolder : List Char := "=e".toList
def rFolder : List Char := "ðŸ“".toList
def pWrench : List Char := ['=', Char.ofNat 0x27]
def rWrench : List Char := "ðŸ”§".toList
def pMarker : List Char := "ï¿½".toList
def rMarker : List Char := "Ã¸".toList
def pFodt : List Char := "Fï¿½dt".toList
def rFodt : List Char := "FÃ¸dt".toList
def pAktor : List Char := "Aktï¿½r".toList
def rAktor : List Char := "AktÃ¸r".toList
def pMode : List Char := "Mï¿½de".toList
def rMode : List Char := "MÃ¸de".toList

/-- The eleven-rule `replacements` table of `fix_file` in
`fix_all_encoding.py`, in dictionary (= insertion) order. -/
def fixAllRules : List (List Char × List Char) :=
  [(pLock, rLock), (pScroll, rScroll), (pCheck, rCheck), (pLink, rLink),
   (pClip, rClip), (pFolder, rFolder), (pWrench, rWrench), (pMarker, rMarker),
   (pFodt, rFodt), (pAktor, rAktor), (pMode, rMode)]

/-- The four-rule table of `fix_compliance_encoding.py` followed by its
trailing catch-all `text.replace('ï¿½', 'Ã¸')`. -/
def complianceRules : List (List Char × List Char) :=
  [(pLock, rLock), (pScroll, rScroll), (pCheck, rCheck), (pFodt, rFodt),
   (pMarker, rMarker)]

def prodSec : List Char := "### = [Security]".toList
def prodSecR : List Char := "### ".toList ++ [Char.ofNat 0x1F512] ++ " [Security]".toList
def prodPerf : List Char := "### ø [Performance]".toList
def prodPerfR : List Char := "### ⚡ [Performance]".toList

/-- The two `content.replace` calls of `fix_production_index.py`. -/
def prodRules : List (List Char × List Char) :=
  [(prodSec, prodSecR), (prodPerf, prodPerfR)]

/-! ### The scripts, with filesystem outcomes passed in explicitly

A read outcome is `Except e (List Nat)` (bytes or a raised error), a write
outcome `Option e` (`some` = the write raises).  `Except.error` models a
Python exception propagating; `fix_file` is the only place with a
`try`/`except` converting it into a `False` return plus a console line. -/

/-- The body of `fix_file` (the code inside its `try`): read bytes, decode
permissively, apply the table, write.  Any raised error propagates. -/
def fixFileBody (readRes : Except (List Char) (List Nat))
    (writeErr : Option (List Char)) : Except (List Char) (List Char) :=
  match readRes with
  | Except.error e => Except.error e
  | Except.ok content =>
    let text := applyRules fixAllRules (decodeReplace content)
    match writeErr with
    | some e => Except.error e
    | none => Except.ok text

/-- `fix_file` of `fix_all_encoding.py`: the `try`/`except Exception`
wrapper around `fixFileBody`.  Returns the boolean result together with
the console line (`Fixed: {path}` or `Error fixing {path}: {e}`). -/
def fix_file (path : List Char) (readRes : Except (List Char) (List Nat))
    (writeErr : Option (List Char)) : Bool × List Char :=
  match fixFileBody readRes writeErr with
  | Except.ok _ => (true, "Fixed: ".toList ++ path)
  | Except.error e => (false, "Error fixing ".toList ++ path ++ ": ".toList ++ e)

/-- The module-level loop of `fix_all_encoding.py`:
`for filepath in md_files: if fix_file(filepath): fixed_count += 1`,
with the per-file console line collected.  `f` is the per-file repair
call; invoking it once per path is what the fold does. -/
def batchDriver {α β : Type} (f : α → Bool × β) (paths : List α) : Nat × List β :=
  paths.foldl
    (fun st path =>
      ((if (f path).1 then st.1 + 1 else st.1), st.2 ++ [(f path).2]))
    (0, [])

/-- The batch of `fix_all_encoding.py` over files given with their
filesystem outcomes. -/
def fixAllBatch
    (files : List (List Char × Except (List Char) (List Nat) × Option (List Char))) :
    Nat × List (List Char) :=
  batchDriver (fun f => fix_file f.1 f.2.1 f.2.2) files

/-- The module-level code of `fix_compliance_encoding.py`: no
`try`/`except`, so a raised error propagates out of the script. -/
def complianceScript (readRes : Except (List Char) (List Nat))
    (writeErr : Option (List Char)) : Except (List Char) (List Nat) :=
  match readRes with
  | Except.error e => Except.error e
  | Except.ok content =>
    let text := applyRules complianceRules (decodeReplace content)
    match writeErr with
    | some e => Except.error e
    | none => Except.ok (utf8Encode text)

/-- The module-level code of `fix_production_index.py`: text-mode read
with strict UTF-8 decoding (raising `UnicodeDecodeError` on invalid
bytes), no `try`/`except`. -/
def prodScript (readRes : Except (List Char) (List Nat))
    (writeErr : Option (List Char)) : Except (List Char) (List Nat) :=
  match readRes with
  | Except.error e => Except.error e
  | Except.ok bs =>
    match decodeStrict bs with
    | none => Except.error "UnicodeDecodeError".toList
    | some text =>
      match writeErr with
      | some e => Except.error e
      | none => Except.ok (utf8Encode (applyRules prodRules text))

/-- The bytes-to-bytes content transformation of `fix_file` /
`fix_compliance_encoding.py` (binary read, permissive decode, rules,
UTF-8 re-encode); always produces output. -/
def fixAllPipeline (bs : List Nat) : Option (List Nat) :=
  some (utf8Encode (applyRules fixAllRules (decodeReplace bs)))

/-- As `fixAllPipeline`, for the compliance script's table. -/
def compliancePipeline (bs : List Nat) : Option (List Nat) :=
  some (utf8Encode (applyRules complianceRules (decodeReplace bs)))

/-- The content transformation of `fix_production_index.py`: text-mode
read = strict decode (`none` = raised `UnicodeDecodeError`), then rules
and UTF-8 re-encode. -/
def prodPipeline (bs : List Nat) : Option (List Nat) :=
  (decodeStrict bs).map (fun t => utf8Encode (applyRules prodRules t))

/-- The first eight rules of `fix_file`'s table (up to and including the
catch-all marker rule). -/
def fixFirst8 : List (List Char × List Char) :=
  [(pLock, rLock), (pScroll, rScroll), (pCheck, rCheck), (pLink, rLink),
   (pClip, rClip), (pFolder, rFolder), (pWrench, rWrench), (pMarker, rMarker)]

/-- The last three rules of `fix_file`'s table (the word-level rules whose
patterns contain the mojibake marker sequence). -/
def fixLast3 : List (List Char × List Char) :=
  [(pFodt, rFodt), (pAktor, rAktor), (pMode, rMode)]

/-! ### Equation lemmas for the fuelled definitions -/

theorem replGo_nil (p r : List Char) (f : Nat) : replGo p r f [] = [] := by
  cases f <;> rfl

theorem replGo_congr (p r : List Char) :
    ∀ f1 : Nat, ∀ f2 s, s.length ≤ f1 → s.length ≤ f2 →
      replGo p r f1 s = replGo p r f2 s := by
  intro f1
  induction f1 with
  | zero =>
    intro f2 s h1 _
    match s with
    | [] => rw [replGo_nil, replGo_nil]
    | c :: cs => simp at h1
  | succ f ih =>
    intro f2 s h1 h2
    match s, f2 with
    | [], g => rw [replGo_nil, replGo_nil]
    | c :: cs, 0 => simp at h2
    | c :: cs, g + 1 =>
      simp only [replGo]
      by_cases h : p ≠ [] ∧ p.isPrefixOf (c :: cs)
      · rw [if_pos h, if_pos h]
        have hb : (cs.drop (p.length - 1)).length ≤ f := by
          simp only [List.length_drop]
          simp only [List.length_cons] at h1
          omega
        have hb2 : (cs.drop (p.length - 1)).length ≤ g := by
          simp only [List.length_drop]
          simp only [List.length_cons] at h2
          omega
        rw [ih g _ hb hb2]
      · rw [if_neg h, if_neg h]
        have hb : cs.length ≤ f := by
          simp only [List.length_cons] at h1; omega
        have hb2 : cs.length ≤ g := by
          simp only [List.length_cons] at h2; omega
        rw [ih g _ hb hb2]

theorem replace_nil (p r : List Char) :
    replace p r [] = if p = [] then r else [] := by
  by_cases hp : p = []
  · simp [replace, hp]
  · simp only [replace, if_neg hp, List.length_nil]
    rw [replGo_nil]

theorem replace_cons (p r : List Char) (hp : p ≠ []) (c : Char) (cs : List Char) :
    replace p r (c :: cs) =
      if p.isPrefixOf (c :: cs) then r ++ replace p r (cs.drop (p.length - 1))
      else c :: replace p r cs := by
  simp only [replace, if_neg hp]
  simp only [List.length_cons, replGo]
  by_cases h : p.isPrefixOf (c :: cs)
  · rw [if_pos ⟨hp, h⟩, if_pos h]
    have := replGo_congr p r cs.length ((cs.drop (p.length - 1)).length)
      (cs.drop (p.length - 1)) (by simp only [List.length_drop]; omega) le_rfl
    rw [this]
  · rw [if_neg (by tauto), if_neg h]

theorem decReplGo_nil (f : Nat) : decReplGo f [] = [] := by
  cases f <;> rfl

theorem decStrictGo_nil (f : Nat) : decStrictGo f [] = some [] := by
  cases f <;> rfl

theorem decReplGo_congr :
    ∀ f1 : Nat, ∀ f2 bs, bs.length ≤ f1 → bs.length ≤ f2 →
      decReplGo f1 bs = decReplGo f2 bs := by
  intro f1
  induction f1 with
  | zero =>
    intro f2 bs h1 _
    match bs with
    | [] => rw [decReplGo_nil, decReplGo_nil]
    | b :: rest => simp at h1
  | succ f ih =>
    intro f2 bs h1 h2
    match bs, f2 with
    | [], g => rw [decReplGo_nil, decReplGo_nil]
    | b :: rest, 0 => simp at h2
    | b :: rest, g + 1 =>
      simp only [decReplGo]
      have hb : ∀ k : Nat, (rest.drop k).length ≤ f := by
        intro k
        simp only [List.length_drop]
        simp only [List.length_cons] at h1
        omega
      have hb2 : ∀ k : Nat, (rest.drop k).length ≤ g := by
        intro k
        simp only [List.length_drop]
        simp only [List.length_cons] at h2
        omega
      rcases hs : utf8Step b rest with ⟨o, k⟩
      rcases o with _ | c <;> simp only [hs] <;> rw [ih g _ (hb k) (hb2 k)]

theorem decStrictGo_congr :
    ∀ f1 : Nat, ∀ f2 bs, bs.length ≤ f1 → bs.length ≤ f2 →
      decStrictGo f1 bs = decStrictGo f2 bs := by
  intro f1
  induction f1 with
  | zero =>
    intro f2 bs h1 _
    match bs with
    | [] => rw [decStrictGo_nil, decStrictGo_nil]
    | b :: rest => simp at h1
  | succ f ih =>
    intro f2 bs h1 h2
    match bs, f2 with
    | [], g => rw [decStrictGo_nil, decStrictGo_nil]
    | b :: rest, 0 => simp at h2
    | b :: rest, g + 1 =>
      simp only [decStrictGo]
      have hb : ∀ k : Nat, (rest.drop k).length ≤ f := by
        intro k
        simp only [List.length_drop]
        simp only [List.length_cons] at h1
        omega
      have hb2 : ∀ k : Nat, (rest.drop k).length ≤ g := by
        intro k
        simp only [List.length_drop]
        simp only [List.length_cons] at h2
        omega
      rcases hs : utf8Step b rest with ⟨o, k⟩
      rcases o with _ | c
      · simp only [hs]
      · simp only [hs]
        rw [ih g _ (hb k) (hb2 k)]

theorem decodeReplace_cons (b : Nat) (rest : List Nat) :
    decodeReplace (b :: rest) =
      match utf8Step b rest with
      | (some c, k) => c :: decodeReplace (rest.drop k)
      | (none, k) => uFFFD :: decodeReplace (rest.drop k) := by
  show decReplGo (rest.length + 1) (b :: rest) = _
  simp only [decReplGo, decodeReplace]
  rcases hs : utf8Step b rest with ⟨o, k⟩
  have hc := decReplGo_congr rest.length ((rest.drop k).length) (rest.drop k)
    (by simp only [List.length_drop]; omega) le_rfl
  rcases o with _ | c <;> simp only [hs] <;> rw [hc]

theorem decodeStrict_cons (b : Nat) (rest : List Nat) :
    decodeStrict (b :: rest) =
      match utf8Step b rest with
      | (some c, k) => (decodeStrict (rest.drop k)).map (fun cs => c :: cs)
      | (none, _) => none := by
  show decStrictGo (rest.length + 1) (b :: rest) = _
  simp only [decStrictGo, decodeStrict]
  rcases hs : utf8Step b rest with ⟨o, k⟩
  have hc := decStrictGo_congr rest.length ((rest.drop k).length) (rest.drop k)
    (by simp only [List.length_drop]; omega) le_rfl
  rcases o with _ | c
  · simp only [hs]
  · simp only [hs]
    rw [hc]

/-- Permissive decoding agrees with strict decoding where the latter
succeeds, and marks at least one U+FFFD where it raises. -/
theorem decodeAgree :
    ∀ n : Nat, ∀ bs : List Nat, bs.length ≤ n →
      (∀ cs, decodeStrict bs = some cs → decodeReplace bs = cs) ∧
      (decodeStrict bs = none → uFFFD ∈ decodeReplace bs) := by
  intro n
  induction n with
  | zero =>
    intro bs h1
    match bs with
    | [] =>
      constructor
      · intro cs hcs
        simp only [decodeStrict, decStrictGo] at hcs
        simp only [decodeReplace, decReplGo]
        exact (Option.some_inj.mp hcs)
      · intro hn
        simp only [decodeStrict, decStrictGo] at hn
        exact Option.noConfusion hn
    | b :: rest => simp at h1
  | succ n ih =>
    intro bs h1
    match bs with
    | [] =>
      constructor
      · intro cs hcs
        simp only [decodeStrict, decStrictGo] at hcs
        simp only [decodeReplace, decReplGo]
        exact (Option.some_inj.mp hcs)
      · intro hn
        simp only [decodeStrict, decStrictGo] at hn
        exact Option.noConfusion hn
    | b :: rest =>
      have hb : ∀ k : Nat, (rest.drop k).length ≤ n := by
        intro k
        simp only [List.length_drop]
        simp only [List.length_cons] at h1
        omega
      rw [decodeReplace_cons, decodeStrict_cons]
      rcases hs : utf8Step b rest with ⟨o, k⟩
      rcases o with _ | c
      · simp only [hs]
        constructor
        · intro cs hcs
          exact absurd hcs (by simp)
        · intro _
          exact List.mem_cons_self uFFFD _
      · simp only [hs]
        constructor
        · intro cs hcs
          rcases Option.map_eq_some'.mp hcs with ⟨cs', hcs', rfl⟩
          rw [(ih (rest.drop k) (hb k)).1 cs' hcs']
        · intro hn
          have : decodeStrict (rest.drop k) = none := Option.map_eq_none'.mp hn
          exact List.mem_cons_of_mem c ((ih (rest.drop k) (hb k)).2 this)

/-! ### Substring lemmas about `replace` -/

theorem prefOfConsStruct {p : List Char} {c : Char} {cs : List Char}
    (hp : p ≠ []) (h : p <+: c :: cs) : ∃ q, p = c :: q ∧ q <+: cs := by
  match p with
  | [] => exact absurd rfl hp
  | a :: q =>
    obtain ⟨t, ht⟩ := h
    simp only [List.cons_append] at ht
    obtain ⟨rfl, ht2⟩ := List.cons.inj ht
    exact ⟨q, rfl, ⟨t, ht2⟩⟩

theorem infxConsCases {q : List Char} {c : Char} {l : List Char}
    (h : q <:+: c :: l) : q <+: c :: l ∨ q <:+: l := by
  obtain ⟨s, t, hst⟩ := h
  match s with
  | [] =>
    left
    exact ⟨t, by simpa using hst⟩
  | a :: s' =>
    right
    simp only [List.cons_append] at hst
    obtain ⟨rfl, hst2⟩ := List.cons.inj hst
    exact ⟨s', t, hst2⟩

theorem infxOfTail {q : List Char} {c : Char} {l : List Char}
    (h : q <:+: l) : q <:+: c :: l := by
  obtain ⟨s, t, hst⟩ := h
  exact ⟨c :: s, t, by simp [hst]⟩

theorem infxOfDrop {q cs : List Char} {k : Nat}
    (h : q <:+: cs.drop k) : q <:+: cs :=
  h.trans (cs.drop_suffix k).isInfix

theorem headMemOfPref {q r b : List Char} (hq : q ≠ []) (hr : r ≠ [])
    (h : q <+: r ++ b) : ∃ ch, ch ∈ q ∧ ch ∈ r := by
  match q, r with
  | [], _ => exact absurd rfl hq
  | _, [] => exact absurd rfl hr
  | a :: q', d :: r' =>
    obtain ⟨t, ht⟩ := h
    simp only [List.cons_append] at ht
    obtain ⟨rfl, _⟩ := List.cons.inj ht
    exact ⟨a, List.mem_cons_self a q', List.mem_cons_self a r'⟩

theorem infxAppendRightOfDisj {q : List Char} (hq : q ≠ []) :
    ∀ a b : List Char, (∀ ch ∈ q, ch ∉ a) → q <:+: a ++ b → q <:+: b := by
  intro a
  induction a with
  | nil => intro b _ h; simpa using h
  | cons c a' ih =>
    intro b hdisj h
    simp only [List.cons_append] at h
    rcases infxConsCases h with hpre | hinf
    · obtain ⟨q', rfl, _⟩ := prefOfConsStruct hq hpre
      exact absurd (List.mem_cons_self c _) (hdisj c (List.mem_cons_self c q'))
    · exact ih b (fun ch hch hmem => hdisj ch hch (List.mem_cons_of_mem c hmem)) hinf

/-- If a pattern-free text `q` is a prefix of `replace p r s` and shares no
character with `r`, it was already a prefix of `s`. -/
theorem prefReplaceBack {p r : List Char} (hp : p ≠ []) (hr : r ≠ []) :
    ∀ n : Nat, ∀ s q : List Char, s.length ≤ n → q ≠ [] →
      (∀ ch ∈ q, ch ∉ r) → q <+: replace p r s → q <+: s := by
  intro n
  induction n with
  | zero =>
    intro s q h1 hq _ hpre
    match s with
    | [] =>
      rw [replace_nil, if_neg hp] at hpre
      exact absurd (List.prefix_nil.mp hpre) hq
    | c :: cs => simp at h1
  | succ n ih =>
    intro s q h1 hq hdisj hpre
    match s with
    | [] =>
      rw [replace_nil, if_neg hp] at hpre
      exact absurd (List.prefix_nil.mp hpre) hq
    | c :: cs =>
      rw [replace_cons p r hp c cs] at hpre
      by_cases hm : p.isPrefixOf (c :: cs)
      · rw [if_pos hm] at hpre
        obtain ⟨ch, hchq, hchr⟩ := headMemOfPref hq hr hpre
        exact absurd hchr (hdisj ch hchq)
      · rw [if_neg hm] at hpre
        obtain ⟨q', rfl, hq'⟩ := prefOfConsStruct hq hpre
        match q' with
        | [] => exact ⟨cs, rfl⟩
        | d :: q'' =>
          have hb : cs.length ≤ n := by
            simp only [List.length_cons] at h1; omega
          have : d :: q'' <+: cs :=
            ih cs (d :: q'') hb (by simp)
              (fun ch hch => hdisj ch (List.mem_cons_of_mem c hch)) hq'
          obtain ⟨t, ht⟩ := this
          exact ⟨t, by simp [ht]⟩

/-- After replacing every occurrence of `p` by an `r` sharing no character
with `p`, no occurrence of `p` remains. -/
theorem selfAbsent {p r : List Char} (hp : p ≠ []) (hr : r ≠ [])
    (hdisj : ∀ ch ∈ p, ch ∉ r) :
    ∀ n : Nat, ∀ s : List Char, s.length ≤ n → ¬ p <:+: replace p r s := by
  intro n
  induction n with
  | zero =>
    intro s h1 hocc
    match s with
    | [] =>
      rw [replace_nil, if_neg hp] at hocc
      obtain ⟨x, y, hxy⟩ := hocc
      have hlen := congrArg List.length hxy
      simp only [List.length_append, List.length_nil] at hlen
      exact hp (List.eq_nil_of_length_eq_zero (by omega))
    | c :: cs => simp at h1
  | succ n ih =>
    intro s h1 hocc
    match s with
    | [] =>
      rw [replace_nil, if_neg hp] at hocc
      obtain ⟨x, y, hxy⟩ := hocc
      have hlen := congrArg List.length hxy
      simp only [List.length_append, List.length_nil] at hlen
      exact hp (List.eq_nil_of_length_eq_zero (by omega))
    | c :: cs =>
      have hcs : cs.length ≤ n := by
        simp only [List.length_cons] at h1; omega
      rw [replace_cons p r hp c cs] at hocc
      by_cases hm : p.isPrefixOf (c :: cs)
      · rw [if_pos hm] at hocc
        have hocc2 := infxAppendRightOfDisj hp r _
          (fun ch hch hmem => hdisj ch hch hmem) hocc
        have hb : (cs.drop (p.length - 1)).length ≤ n := by
          simp only [List.length_drop]
          simp only [List.length_cons] at h1
          omega
        exact ih (cs.drop (p.length - 1)) hb hocc2
      · rw [if_neg hm] at hocc
        rcases infxConsCases hocc with hpre | hinf
        · obtain ⟨p', hpeq, hp'⟩ := prefOfConsStruct hp hpre
          match p', hpeq, hp' with
          | [], hpeq, _ =>
            apply hm
            rw [hpeq]
            exact List.isPrefixOf_iff_prefix.mpr ⟨cs, rfl⟩
          | d :: p'', hpeq, hp' =>
            have hback : d :: p'' <+: cs :=
              prefReplaceBack hp hr cs.length cs (d :: p'') le_rfl (by simp)
                (fun ch hch => hdisj ch (by rw [hpeq]; exact List.mem_cons_of_mem c hch))
                hp'
            apply hm
            rw [hpeq]
            obtain ⟨t, ht⟩ := hback
            exact List.isPrefixOf_iff_prefix.mpr ⟨t, by simp [ht]⟩
        · exact ih cs hcs hinf

/-- Replacing `p` by an `r` nonempty and sharing no character with `q`
cannot create an occurrence of `q`. -/
theorem absentPreserved {q p r : List Char} (hq : q ≠ []) (hp : p ≠ [])
    (hr : r ≠ []) (hdisj : ∀ ch ∈ q, ch ∉ r) :
    ∀ n : Nat, ∀ s : List Char, s.length ≤ n →
      q <:+: replace p r s → q <:+: s := by
  intro n
  induction n with
  | zero =>
    intro s h1 hocc
    match s with
    | [] =>
      rw [replace_nil, if_neg hp] at hocc
      exact hocc
    | c :: cs => simp at h1
  | succ n ih =>
    intro s h1 hocc
    match s with
    | [] =>
      rw [replace_nil, if_neg hp] at hocc
      exact hocc
    | c :: cs =>
      have hcs : cs.length ≤ n := by
        simp only [List.length_cons] at h1; omega
      rw [replace_cons p r hp c cs] at hocc
      by_cases hm : p.isPrefixOf (c :: cs)
      · rw [if_pos hm] at hocc
        have hocc2 := infxAppendRightOfDisj hq r _ hdisj hocc
        have hb : (cs.drop (p.length - 1)).length ≤ n := by
          simp only [List.length_drop]
          simp only [List.length_cons] at h1
          omega
        exact infxOfTail (infxOfDrop (ih (cs.drop (p.length - 1)) hb hocc2))
      · rw [if_neg hm] at hocc
        rcases infxConsCases hocc with hpre | hinf
        · obtain ⟨q', hqeq, hq'⟩ := prefOfConsStruct hq hpre
          match q', hqeq, hq' with
          | [], hqeq, _ =>
            rw [hqeq]
            exact ⟨[], cs, rfl⟩
          | d :: q'', hqeq, hq' =>
            have hback : d :: q'' <+: cs :=
              prefReplaceBack hp hr cs.length cs (d :: q'') le_rfl (by simp)
                (fun ch hch => hdisj ch (by rw [hqeq]; exact List.mem_cons_of_mem c hch))
                hq'
            rw [hqeq]
            obtain ⟨t, ht⟩ := hback
            exact ⟨[], t, by simp [ht]⟩
        · exact infxOfTail (ih cs hcs hinf)

/-- `replace` is the identity on a text with no occurrence of the pattern. -/
theorem replaceIdOfAbsent {p r : List Char} (hp : p ≠ []) :
    ∀ n : Nat, ∀ s : List Char, s.length ≤ n →
      ¬ p <:+: s → replace p r s = s := by
  intro n
  induction n with
  | zero =>
    intro s h1 _
    match s with
    | [] => rw [replace_nil, if_neg hp]
    | c :: cs => simp at h1
  | succ n ih =>
    intro s h1 habs
    match s with
    | [] => rw [replace_nil, if_neg hp]
    | c :: cs =>
      have hcs : cs.length ≤ n := by
        simp only [List.length_cons] at h1; omega
      rw [replace_cons p r hp c cs]
      have hm : ¬ p.isPrefixOf (c :: cs) := by
        intro hm
        obtain ⟨t, ht⟩ := List.isPrefixOf_iff_prefix.mp hm
        exact habs ⟨[], t, by simp [ht]⟩
      rw [if_neg hm]
      rw [ih cs hcs (fun hocc => habs (infxOfTail hocc))]

/-- A character not occurring in the pattern survives `replace`. -/
theorem memReplace {p r : List Char} (hp : p ≠ []) {ch : Char} (hch : ch ∉ p) :
    ∀ n : Nat, ∀ s : List Char, s.length ≤ n → ch ∈ s → ch ∈ replace p r s := by
  intro n
  induction n with
  | zero =>
    intro s h1 hmem
    match s with
    | [] => exact absurd hmem (List.not_mem_nil ch)
    | c :: cs => simp at h1
  | succ n ih =>
    intro s h1 hmem
    match s with
    | [] => exact absurd hmem (List.not_mem_nil ch)
    | c :: cs =>
      have hcs : cs.length ≤ n := by
        simp only [List.length_cons] at h1; omega
      rw [replace_cons p r hp c cs]
      by_cases hm : p.isPrefixOf (c :: cs)
      · rw [if_pos hm]
        obtain ⟨t, ht⟩ := List.isPrefixOf_iff_prefix.mp hm
        have htails : cs.drop (p.length - 1) = t := by
          match p, ht with
          | a :: p0, ht =>
            simp only [List.cons_append] at ht
            obtain ⟨rfl, ht2⟩ := List.cons.inj ht
            simp only [List.length_cons, Nat.add_sub_cancel]
            rw [← ht2, List.drop_left]
        have hmt : ch ∈ t := by
          rw [← ht] at hmem
          rcases List.mem_append.mp hmem with hin | hin
          · exact absurd hin hch
          · exact hin
        have hb : t.length ≤ n := by
          have hlen := congrArg List.length ht
          simp only [List.length_append, List.length_cons] at hlen
          have hp1 : 0 < p.length := List.length_pos.mpr hp
          omega
        refine List.mem_append.mpr (Or.inr ?_)
        rw [htails]
        exact ih t hb hmt
      · rw [if_neg hm]
        rcases List.mem_cons.mp hmem with rfl | hin
        · exact List.mem_cons_self ch _
        · exact List.mem_cons_of_mem c (ih cs hcs hin)

/-! ### Lemmas about `applyRules` -/

theorem applyRules_append (rs1 rs2 : List (List Char × List Char)) :
    ∀ t, applyRules (rs1 ++ rs2) t = applyRules rs2 (applyRules rs1 t) := by
  induction rs1 with
  | nil => intro t; rfl
  | cons pr rs ih =>
    intro t
    simp only [List.cons_append, applyRules]
    exact ih (replace pr.1 pr.2 t)

theorem applyRulesIdOfAbsent :
    ∀ rules : List (List Char × List Char), ∀ t : List Char,
      (∀ pr ∈ rules, pr.1 ≠ [] ∧ ¬ pr.1 <:+: t) → applyRules rules t = t := by
  intro rules
  induction rules with
  | nil => intro t _; rfl
  | cons pr rs ih =>
    intro t h
    have hhead := h pr (List.mem_cons_self pr rs)
    have hid : replace pr.1 pr.2 t = t :=
      replaceIdOfAbsent hhead.1 t.length t le_rfl hhead.2
    simp only [applyRules, hid]
    exact ih t (fun q hq => h q (List.mem_cons_of_mem pr hq))

theorem memApplyRules :
    ∀ rules : List (List Char × List Char), ∀ t : List Char, ∀ ch : Char,
      ch ∈ t → (∀ pr ∈ rules, pr.1 ≠ [] ∧ ch ∉ pr.1) →
      ch ∈ applyRules rules t := by
  intro rules
  induction rules with
  | nil => intro t ch hm _; exact hm
  | cons pr rs ih =>
    intro t ch hm h
    have hhead := h pr (List.mem_cons_self pr rs)
    simp only [applyRules]
    exact ih (replace pr.1 pr.2 t) ch
      (memReplace hhead.1 hhead.2 t.length t le_rfl hm)
      (fun q hq => h q (List.mem_cons_of_mem pr hq))

/-- A text free of `q` stays free of `q` through a rule list whose
replacements are nonempty and share no character with `q`. -/
theorem chainAbsent {q : List Char} (hq : q ≠ []) :
    ∀ rules : List (List Char × List Char),
      (∀ pr ∈ rules, pr.1 ≠ [] ∧ pr.2 ≠ [] ∧ (∀ ch ∈ q, ch ∉ pr.2)) →
      ∀ t : List Char, ¬ q <:+: t → ¬ q <:+: applyRules rules t := by
  intro rules
  induction rules with
  | nil => intro _ t h; exact h
  | cons pr rs ih =>
    intro h t habs
    have hhead := h pr (List.mem_cons_self pr rs)
    simp only [applyRules]
    refine ih (fun x hx => h x (List.mem_cons_of_mem pr hx)) _ ?_
    intro hocc
    exact habs (absentPreserved hq hhead.1 hhead.2.1 hhead.2.2
      t.length t le_rfl hocc)

/-! ### Absence of the patterns from the repaired text -/


/-- In a table `A ++ (q, v) :: B`, once the rule `(q, v)` has run, no
occurrence of `q` survives to the end, provided `v` and all later
replacements are nonempty and avoid the characters of `q`. -/
theorem absentAfterTable (q v : List Char) (A B : List (List Char × List Char))
    (hq : q ≠ []) (hv : v ≠ []) (hdisj : ∀ ch ∈ q, ch ∉ v)
    (hB : ∀ pr ∈ B, pr.1 ≠ [] ∧ pr.2 ≠ [] ∧ (∀ ch ∈ q, ch ∉ pr.2))
    (t : List Char) : ¬ q <:+: applyRules (A ++ (q, v) :: B) t := by
  intro hocc
  rw [applyRules_append] at hocc
  simp only [applyRules] at hocc
  have h0 : ¬ q <:+: replace q v (applyRules A t) :=
    selfAbsent hq hv hdisj _ _ le_rfl
  exact chainAbsent hq B hB _ h0 hocc

theorem noLockFix8 (t : List Char) : ¬ pLock <:+: applyRules fixFirst8 t :=
  absentAfterTable pLock rLock []
    [(pScroll, rScroll), (pCheck, rCheck), (pLink, rLink), (pClip, rClip),
     (pFolder, rFolder), (pWrench, rWrench), (pMarker, rMarker)]
    (by decide) (by decide) (by decide) (by decide) t

theorem noCheckFix8 (t : List Char) : ¬ pCheck <:+: applyRules fixFirst8 t :=
  absentAfterTable pCheck rCheck [(pLock, rLock), (pScroll, rScroll)]
    [(pLink, rLink), (pClip, rClip), (pFolder, rFolder), (pWrench, rWrench),
     (pMarker, rMarker)]
    (by decide) (by decide) (by decide) (by decide) t

theorem noLinkFix8 (t : List Char) : ¬ pLink <:+: applyRules fixFirst8 t :=
  absentAfterTable pLink rLink
    [(pLock, rLock), (pScroll, rScroll), (pCheck, rCheck)]
    [(pClip, rClip), (pFolder, rFolder), (pWrench, rWrench), (pMarker, rMarker)]
    (by decide) (by decide) (by decide) (by decide) t

theorem noFolderFix8 (t : List Char) : ¬ pFolder <:+: applyRules fixFirst8 t :=
  absentAfterTable pFolder rFolder
    [(pLock, rLock), (pScroll, rScroll), (pCheck, rCheck), (pLink, rLink),
     (pClip, rClip)]
    [(pWrench, rWrench), (pMarker, rMarker)]
    (by decide) (by decide) (by decide) (by decide) t

theorem noWrenchFix8 (t : List Char) : ¬ pWrench <:+: applyRules fixFirst8 t :=
  absentAfterTable pWrench rWrench
    [(pLock, rLock), (pScroll, rScroll), (pCheck, rCheck), (pLink, rLink),
     (pClip, rClip), (pFolder, rFolder)]
    [(pMarker, rMarker)]
    (by decide) (by decide) (by decide) (by decide) t

theorem noMarkerFix8 (t : List Char) : ¬ pMarker <:+: applyRules fixFirst8 t :=
  absentAfterTable pMarker rMarker
    [(pLock, rLock), (pScroll, rScroll), (pCheck, rCheck), (pLink, rLink),
     (pClip, rClip), (pFolder, rFolder), (pWrench, rWrench)]
    []
    (by decide) (by decide) (by decide) (by decide) t

/-- The last three rules of `fix_file`'s table never fire: the catch-all
rule listed before them has already removed every occurrence of the
marker sequence their patterns contain. -/
theorem fixAll_eq_first8 (t : List Char) :
    applyRules fixAllRules t = applyRules fixFirst8 t := by
  have hsplit : applyRules fixAllRules t
      = applyRules fixLast3 (applyRules fixFirst8 t) := by
    rw [show fixAllRules = fixFirst8 ++ fixLast3 from rfl, applyRules_append]
  rw [hsplit]
  apply applyRulesIdOfAbsent
  intro pr hpr
  have hnm := noMarkerFix8 t
  simp only [fixLast3, List.mem_cons, List.not_mem_nil, or_false] at hpr
  rcases hpr with rfl | rfl | rfl
  · exact ⟨by decide, fun hocc => hnm ((show pMarker <:+: pFodt by decide).trans hocc)⟩
  · exact ⟨by decide, fun hocc => hnm ((show pMarker <:+: pAktor by decide).trans hocc)⟩
  · exact ⟨by decide, fun hocc => hnm ((show pMarker <:+: pMode by decide).trans hocc)⟩

theorem noMarkerFixAll (t : List Char) :
    ¬ pMarker <:+: applyRules fixAllRules t := by
  rw [fixAll_eq_first8]
  exact noMarkerFix8 t

theorem noMarkerCompliance (t : List Char) :
    ¬ pMarker <:+: applyRules complianceRules t :=
  absentAfterTable pMarker rMarker
    [(pLock, rLock), (pScroll, rScroll), (pCheck, rCheck), (pFodt, rFodt)]
    []
    (by decide) (by decide) (by decide) (by decide) t

/-- No pattern of `fix_file`'s table occurs in the output of a full pass. -/
theorem noPatFixAll (t : List Char) :
    ∀ pr ∈ fixAllRules, ¬ pr.1 <:+: applyRules fixAllRules t := by
  intro pr hpr
  rw [fixAll_eq_first8]
  have hnm := noMarkerFix8 t
  simp only [fixAllRules, List.mem_cons, List.not_mem_nil, or_false] at hpr
  rcases hpr with rfl | rfl | rfl | rfl | rfl | rfl | rfl | rfl | rfl | rfl | rfl
  · exact noLockFix8 t
  · exact fun hocc => hnm ((show pMarker <:+: pScroll by decide).trans hocc)
  · exact noCheckFix8 t
  · exact noLinkFix8 t
  · exact fun hocc => hnm ((show pMarker <:+: pClip by decide).trans hocc)
  · exact noFolderFix8 t
  · exact noWrenchFix8 t
  · exact hnm
  · exact fun hocc => hnm ((show pMarker <:+: pFodt by decide).trans hocc)
  · exact fun hocc => hnm ((show pMarker <:+: pAktor by decide).trans hocc)
  · exact fun hocc => hnm ((show pMarker <:+: pMode by decide).trans hocc)


theorem batchDriverGo {α β : Type} (f : α → Bool × β) :
    ∀ (paths : List α) (n : Nat) (log : List β),
      paths.foldl
        (fun st path =>
          ((if (f path).1 then st.1 + 1 else st.1), st.2 ++ [(f path).2]))
        (n, log)
      = (n + (paths.filter (fun x => (f x).1)).length,
         log ++ paths.map (fun x => (f x).2)) := by
  intro paths
  induction paths with
  | nil => intro n log; simp
  | cons a as ih =>
    intro n log
    simp only [List.foldl_cons, List.filter_cons, List.map_cons]
    by_cases h : (f a).1 = true
    · rw [if_pos h, ih]
      simp only [h, if_true, Prod.mk.injEq]
      constructor
      · simp only [List.length_cons]
        omega
      · simp
    · rw [if_neg h, ih]
      simp only [h, Bool.false_eq_true, if_false, Prod.mk.injEq]
      constructor
      · trivial
      · simp

/-! ### The claims -/

/-- C1: `apply_rules` applies the substitution rules strictly in listed
order: the loop is the left fold of single-rule replacement over the rule
list, and a single rule rewrites the occurrence at the scan position and
continues past the inserted replacement (left to right, non-overlapping). -/
theorem spec_C1 :
    (∀ (rules : List (List Char × List Char)) (t : List Char),
        applyRules rules t = rules.foldl (fun s pr => replace pr.1 pr.2 s) t) ∧
    (∀ p v u : List Char, p ≠ [] → replace p v (p ++ u) = v ++ replace p v u) := by
  constructor
  · intro rules
    induction rules with
    | nil => intro t; rfl
    | cons pr rs ih =>
      intro t
      simp only [applyRules, List.foldl_cons]
      exact ih (replace pr.1 pr.2 t)
  · intro p v u hp
    match p with
    | a :: p0 =>
      have hpre : (a :: p0).isPrefixOf ((a :: p0) ++ u) :=
        List.isPrefixOf_iff_prefix.mpr ⟨u, rfl⟩
      rw [show (a :: p0) ++ u = a :: (p0 ++ u) from rfl,
        replace_cons (a :: p0) v hp a (p0 ++ u), if_pos (by exact hpre)]
      simp only [List.length_cons, Nat.add_sub_cancel]
      rw [List.drop_left]

/-- Witness for C1: the leftmost-occurrence equation at a concrete input. -/
theorem spec_C1_witness :
    replace ['a'] ['b'] (['a'] ++ ['c']) = ['b'] ++ replace ['a'] ['b'] ['c'] :=
  spec_C1.2 ['a'] ['b'] ['c'] (by decide)

/-- C2 counterexample: in `fix_compliance_encoding.py` a read error is not
caught — it propagates out of the script unchanged instead of becoming a
reported per-file failure result. -/
theorem spec_C2_counterexample :
    complianceScript (Except.error "No such file or directory".toList) none
      = Except.error "No such file or directory".toList := rfl

/-- C2 (amended): only `fix_all_encoding.py`'s `fix_file` catches per-file
errors — read or write failures yield `False` with a console line holding
the path and the reason, and the batch still visits every file; the
compliance and production scripts have no handler, so their single file's
error propagates and terminates the script. -/
theorem spec_C2_amended :
    (∀ (path e : List Char) (w : Option (List Char)),
        fix_file path (Except.error e) w
          = (false, "Error fixing ".toList ++ path ++ ": ".toList ++ e)) ∧
    (∀ (path : List Char) (c : List Nat) (e : List Char),
        fix_file path (Except.ok c) (some e)
          = (false, "Error fixing ".toList ++ path ++ ": ".toList ++ e)) ∧
    (∀ files, (fixAllBatch files).2.length = files.length) ∧
    (∀ (e : List Char) (w : Option (List Char)),
        complianceScript (Except.error e) w = Except.error e) ∧
    (∀ (e : List Char) (w : Option (List Char)),
        prodScript (Except.error e) w = Except.error e) := by
  refine ⟨fun path e w => rfl, fun path c e => rfl, ?_, fun e w => rfl, fun e w => rfl⟩
  intro files
  show (batchDriver _ files).2.length = _
  unfold batchDriver
  rw [batchDriverGo]
  simp

/-- C3 counterexample: `fix_production_index.py` does not decode
permissively — on a byte sequence with an invalid byte its text-mode read
raises (`none`), while `fix_file`'s binary-read-plus-permissive-decode
pipeline still produces output. -/
theorem spec_C3_counterexample :
    prodPipeline [0xFF] = none ∧ fixAllPipeline [0xFF] = some [0xEF, 0xBF, 0xBD] := by
  constructor
  · rfl
  · decide

/-- C3 (amended): `fix_file` and the compliance script read bytes and
decode permissively, so their content pipelines always produce output;
the production script reads in text mode with strict UTF-8 decoding, so
its pipeline produces output exactly when strict decoding succeeds. -/
theorem spec_C3_amended :
    ∀ bs : List Nat, (fixAllPipeline bs).isSome = true ∧
      (compliancePipeline bs).isSome = true ∧
      (prodPipeline bs).isSome = (decodeStrict bs).isSome := by
  intro bs
  refine ⟨rfl, rfl, ?_⟩
  unfold prodPipeline
  rcases decodeStrict bs with _ | t <;> rfl

/-- C4: on input bytes that strict decoding rejects, permissive decoding
yields the replacement marker U+FFFD, no rule of either table touches it
(no pattern contains U+FFFD), and the final text still contains it. -/
theorem spec_C4 :
    ∀ bs : List Nat, decodeStrict bs = none →
      uFFFD ∈ decodeReplace bs ∧
      uFFFD ∈ applyRules fixAllRules (decodeReplace bs) ∧
      uFFFD ∈ applyRules complianceRules (decodeReplace bs) := by
  intro bs hn
  have h1 := (decodeAgree bs.length bs le_rfl).2 hn
  exact ⟨h1, memApplyRules fixAllRules _ uFFFD h1 (by decide),
    memApplyRules complianceRules _ uFFFD h1 (by decide)⟩

/-- Witness for C4 at the concrete invalid byte sequence 41 FF 42. -/
theorem spec_C4_witness :
    uFFFD ∈ decodeReplace [0x41, 0xFF, 0x42] ∧
    uFFFD ∈ applyRules fixAllRules (decodeReplace [0x41, 0xFF, 0x42]) ∧
    uFFFD ∈ applyRules complianceRules (decodeReplace [0x41, 0xFF, 0x42]) :=
  spec_C4 [0x41, 0xFF, 0x42] (by decide)

/-- C5: permissive decoding is total by construction (it is a function to
texts); it agrees with strict decoding whenever the latter succeeds, and
whenever strict decoding raises it puts the replacement marker U+FFFD in
the result. -/
theorem spec_C5 :
    ∀ bs : List Nat,
      (∀ cs, decodeStrict bs = some cs → decodeReplace bs = cs) ∧
      (decodeStrict bs = none → uFFFD ∈ decodeReplace bs) :=
  fun bs => decodeAgree bs.length bs le_rfl

/-- Witness for C5: both branches at concrete byte sequences. -/
theorem spec_C5_witness :
    decodeReplace [0x46, 0xC3, 0xB8] = ['F', Char.ofNat 0xF8] ∧
    uFFFD ∈ decodeReplace [0xFF] :=
  ⟨(spec_C5 [0x46, 0xC3, 0xB8]).1 ['F', Char.ofNat 0xF8] (by decide),
   (spec_C5 [0xFF]).2 (by decide)⟩

/-- C6: the eleven-rule table of `fix_file` is idempotent: a second full
pass over the output of a first pass changes nothing, because no pattern
of the table occurs in the output of a full pass. -/
theorem spec_C6 :
    ∀ t : List Char,
      applyRules fixAllRules (applyRules fixAllRules t) = applyRules fixAllRules t := by
  intro t
  apply applyRulesIdOfAbsent
  intro pr hpr
  exact ⟨(show ∀ q ∈ fixAllRules, q.1 ≠ [] by decide) pr hpr, noPatFixAll t pr hpr⟩

/-- C7: the batch loop of `fix_all_encoding.py` invokes the per-file
repair once per matched path in order (the log has one entry per path),
and the reported count is exactly the number of successful repairs, hence
between 0 and the number of paths. -/
theorem spec_C7 :
    ∀ {α β : Type} (f : α → Bool × β) (paths : List α),
      (batchDriver f paths).2 = paths.map (fun x => (f x).2) ∧
      (batchDriver f paths).1 = (paths.filter (fun x => (f x).1)).length ∧
      (batchDriver f paths).1 ≤ paths.length := by
  intro α β f paths
  unfold batchDriver
  rw [batchDriverGo]
  refine ⟨by simp, by simp, ?_⟩
  simpa using List.length_filter_le (fun x => (f x).1) paths

/-- C8: already-correct text containing the properly encoded word `Født`
is left unchanged by all three scripts' rule tables: no pattern matches
correct text. -/
theorem spec_C8 :
    applyRules fixAllRules "Født 1950".toList = "Født 1950".toList ∧
    applyRules complianceRules "Født 1950".toList = "Født 1950".toList ∧
    applyRules prodRules "Født 1950".toList = "Født 1950".toList := by
  decide

/-- C9 counterexample: the written text can contain the Unicode
replacement character.  On input bytes 46 FF 64 74 the permissive decode
yields `F`, U+FFFD, `d`, `t`; no rule of either table touches U+FFFD (the
catch-all pattern is the mojibake sequence U+00EF U+00BF U+00BD, not
U+FFFD), and the re-encoded output bytes contain EF BF BD, the UTF-8 form
of U+FFFD. -/
theorem spec_C9_counterexample :
    uFFFD ∈ applyRules complianceRules (decodeReplace [0x46, 0xFF, 0x64, 0x74]) ∧
    uFFFD ∈ applyRules fixAllRules (decodeReplace [0x46, 0xFF, 0x64, 0x74]) ∧
    [0xEF, 0xBF, 0xBD] <:+: utf8Encode
      (applyRules complianceRules (decodeReplace [0x46, 0xFF, 0x64, 0x74])) := by
  decide

/-- C9 (amended): the trailing catch-all rule eliminates every occurrence
of the three-code-point mojibake sequence U+00EF U+00BF U+00BD from the
output of both scripts — but it does not target U+FFFD, so a marker left
by permissive decoding survives to the written text. -/
theorem spec_C9_amended :
    (∀ t : List Char, ¬ pMarker <:+: applyRules complianceRules t ∧
        ¬ pMarker <:+: applyRules fixAllRules t) ∧
    uFFFD ∈ applyRules complianceRules (decodeReplace [0x46, 0xFF]) := by
  refine ⟨fun t => ⟨noMarkerCompliance t, noMarkerFixAll t⟩, ?_⟩
  decide

/-- C10: the three word-level rules listed after the catch-all rule can
never match — the catch-all has already removed the marker sequence their
patterns contain — so the full eleven-rule table is extensionally equal
to its first eight rules. -/
theorem spec_C10 :
    ∀ t : List Char,
      applyRules fixAllRules t = applyRules (fixAllRules.take 8) t := by
  intro t
  rw [show fixAllRules.take 8 = fixFirst8 from rfl]
  exact fixAll_eq_first8 t
